import Mathlib

/-!
Shallow embedding of the `changelog` Go library (git-pkgs/changelog).

The document is modelled as a list of characters.  Go regular expressions
that the source compiles (RE2 syntax) are embedded as executable character
level matching functions; character classes follow RE2 ASCII semantics
(`\s` is space, tab, newline, form feed, carriage return; `\w` is
`[0-9A-Za-z_]`; `\d` is `[0-9]`).  Byte positions in the Go code coincide
with character positions on ASCII input, which is how the document is
modelled here (the spec treats a document as a sequence of characters).
-/

namespace Changelog

/-- RE2 word character class `\w`, mirrors `isWordChar` in the source. -/
def isWordChar (b : Char) : Bool :=
  ('a' ≤ b && b ≤ 'z') || ('A' ≤ b && b ≤ 'Z') || ('0' ≤ b && b ≤ '9') || b = '_'

/-- RE2 whitespace class `\s` (ASCII): space, tab, newline, form feed, carriage return. -/
def isSpaceRE (c : Char) : Bool :=
  c = ' ' || c = '\t' || c = '\n' || c = '\x0c' || c = '\r'

/-- Go `unicode.IsSpace` restricted to ASCII, used by `strings.TrimSpace`. -/
def isGoSpace (c : Char) : Bool :=
  c = ' ' || c = '\t' || c = '\n' || c = '\x0b' || c = '\x0c' || c = '\r'

/-- RE2 digit class `\d`. -/
def isDigitRE (c : Char) : Bool := '0' ≤ c && c ≤ '9'

/-- ASCII alphanumeric, the class `[a-zA-Z0-9]` in the source patterns. -/
def isAlnumChar (c : Char) : Bool :=
  ('a' ≤ c && c ≤ 'z') || ('A' ≤ c && c ≤ 'Z') || ('0' ≤ c && c ≤ '9')

/-- Character class `[\w.+-]` of the version token in the source patterns. -/
def isTokenChar (c : Char) : Bool :=
  isWordChar c || c = '.' || c = '+' || c = '-'

/-- Length of the longest run of characters satisfying `p` at the head of the list. -/
def runLen (p : Char → Bool) : List Char → Nat
  | [] => 0
  | c :: cs => if p c then runLen p cs + 1 else 0

/-- Strip the exact character sequence `p` from the head of `l`; `none` when
`p` is not a leading segment of `l`. -/
def stripPfx : List Char → List Char → Option (List Char)
  | [], l => some l
  | _ :: _, [] => none
  | p :: ps, c :: cs => if p = c then stripPfx ps cs else none

/-- Try `f n`, `f (n-1)`, ..., `f 1` in that order and return the first
success; this realizes the longest-first backtracking order of a greedy
regular expression quantifier. -/
def tryDown (f : Nat → Option α) : Nat → Option α
  | 0 => none
  | n + 1 => ((f (n + 1)).orElse fun _ => tryDown f n)

/-- Fuel-driven worker for `occurrencesOf`: positions of the non-overlapping
leftmost occurrences of the literal `p` in `l`, absolute position of the
head of `l` being `i`.  Mirrors `regexp.FindAllStringIndex` on the
quoted (literal) version pattern. -/
def occurrencesAux (p : List Char) : Nat → List Char → Nat → List Nat
  | 0, _, _ => []
  | _ + 1, [], _ => []
  | fuel + 1, l@(_ :: cs), i =>
    if p ≠ [] ∧ (stripPfx p l).isSome then
      i :: occurrencesAux p fuel (l.drop p.length) (i + p.length)
    else
      occurrencesAux p fuel cs (i + 1)

/-- Positions of the non-overlapping leftmost occurrences of the literal
character sequence `p` in `l`. -/
def occurrencesOf (p l : List Char) : List Nat :=
  occurrencesAux p l.length l 0

/-- The manual boundary check of `containsVersion` at one occurrence
position `s`: the character before the occurrence must not be a dot and
not a word character other than `v` or `V`; the character after it must
not be a dot, a dash, or a word character. -/
def boundaryOk (line p : List Char) (s : Nat) : Bool :=
  (decide (s = 0) ||
    (match line.get? (s - 1) with
     | some prev => !(prev = '.') && (!(isWordChar prev) || prev = 'v' || prev = 'V')
     | none => true)) &&
  (match line.get? (s + p.length) with
   | some next => !(next = '.' || next = '-' || isWordChar next)
   | none => true)

/-- Embedding of `containsVersion`: does `line` contain an occurrence of
the literal `p` that passes the boundary check. -/
def containsVersion (line p : List Char) : Bool :=
  (occurrencesOf p line).any (boundaryOk line p)

/-- Go `strings.Split` on a single newline: the document as a list of lines. -/
def splitOnNl : List Char → List (List Char)
  | [] => [[]]
  | c :: cs =>
    if c = '\n' then [] :: splitOnNl cs
    else
      match splitOnNl cs with
      | l :: ls => (c :: l) :: ls
      | [] => [[c]]

/-- Does the line contain `sv` immediately followed by two dots, the
`rangeRe` check of `LineForVersion` (a literal substring test). -/
def hasRangeToken (sv line : List Char) : Bool :=
  !(occurrencesOf (sv ++ ['.', '.']) line).isEmpty

/-- Head of the list is an RE2 whitespace character. -/
def headSpace : List Char → Bool
  | c :: _ => isSpaceRE c
  | [] => false

/-- Tail part of `versionLineRe` after the optional `v`: the token, an
optional colon, then a whitespace character. -/
def vlTail (sv rest : List Char) : Bool :=
  match stripPfx sv rest with
  | some r2 =>
    (match r2 with
     | ':' :: r3 => headSpace r3
     | _ => headSpace r2)
  | none => false

/-- Embedding of `versionLineRe`, the pattern `^v?` token `:?\s`. -/
def versionLinePred (sv l : List Char) : Bool :=
  match l with
  | 'v' :: rest => vlTail sv rest || vlTail sv l
  | _ => vlTail sv l

/-- Embedding of `bracketRe`, the pattern `^\[` token `\]`. -/
def bracketPred (sv l : List Char) : Bool :=
  (stripPfx ('[' :: sv ++ [']']) l).isSome

/-- ASCII lower casing, the effect of the `(?i)` flag on `bulletRe`. -/
def toLowerCh (c : Char) : Char :=
  if 'A' ≤ c ∧ c ≤ 'Z' then Char.ofNat (c.toNat + 32) else c

/-- Embedding of `bulletRe`, the case-insensitive pattern
`^[+*\-]\s+(version\s+)?` token.  (The maximal-run treatment of `\s+` is
exact here because neither `version` nor a version token starts with a
whitespace character in any reachable call.) -/
def bulletPred (sv l : List Char) : Bool :=
  let sl := sv.map toLowerCh
  match l.map toLowerCh with
  | b :: rest =>
    (b = '+' || b = '*' || b = '-') &&
    (let w := runLen isSpaceRE rest
     decide (1 ≤ w) &&
     (let r2 := rest.drop w
      (stripPfx sl r2).isSome ||
      (match stripPfx ['v', 'e', 'r', 's', 'i', 'o', 'n'] r2 with
       | some r3 =>
         let w2 := runLen isSpaceRE r3
         decide (1 ≤ w2) && (stripPfx sl (r3.drop w2)).isSome
       | none => false)))
  | [] => false

/-- The shape `\d{4}-\d{2}-\d{2}` of an ISO calendar date. -/
def isoShape : List Char → Bool
  | [a, b, c, d, e, f, g, h, i, j] =>
    isDigitRE a && isDigitRE b && isDigitRE c && isDigitRE d && e = '-' &&
    isDigitRE f && isDigitRE g && h = '-' && isDigitRE i && isDigitRE j
  | _ => false

/-- Embedding of `dateLineRe`, the pattern `^\d{4}-\d{2}-\d{2}`. -/
def datePred (l : List Char) : Bool :=
  isoShape (l.take 10)

/-- Embedding of `underlineRe`, the pattern `^[=\-+]{3,}\s*$` applied to
the next line. -/
def underlinePred (nl : List Char) : Bool :=
  let r := runLen (fun c => c = '=' || c = '-' || c = '+') nl
  decide (3 ≤ r) && (nl.drop r).all isSpaceRE

/-- All per-line tests of the `LineForVersion` loop body combined: the
boundary-checked occurrence test, the range-token veto, then the ordered
header-shape checks (their disjunction equals the ordered early returns
of the Go loop). -/
def lineMatches (sv l : List Char) (next : Option (List Char)) : Bool :=
  containsVersion l sv &&
  !(hasRangeToken sv l) &&
  ((match l with
    | '#' :: _ => true
    | '!' :: _ => true
    | '=' :: '=' :: _ => true
    | _ => false) ||
   versionLinePred sv l ||
   bracketPred sv l ||
   bulletPred sv l ||
   datePred l ||
   (match next with
    | some nl => underlinePred nl
    | none => false))

/-- The scan of `LineForVersion` over the line list, carrying the index of
the current line; returns the first qualifying index or `-1`. -/
def lineScan (sv : List Char) : List (List Char) → Nat → Int
  | [], _ => -1
  | l :: rest, i =>
    if lineMatches sv l rest.head? then Int.ofNat i else lineScan sv rest (i + 1)

/-- Go `strings.TrimPrefix` for a single character. -/
def stripOne (c : Char) : List Char → List Char
  | [] => []
  | x :: xs => if x = c then xs else x :: xs

/-- The token normalization of `LineForVersion`: `strings.TrimPrefix(v, "v")`
followed by `strings.TrimPrefix(·, "V")`. -/
def stripToken (l : List Char) : List Char :=
  stripOne 'V' (stripOne 'v' l)

/-- Embedding of `Parser.LineForVersion`: 0-based line of the version
header, `-1` when not found. -/
def LineForVersion (content version : String) : Int :=
  if version = "" then -1
  else lineScan (stripToken version.toList) (splitOnNl content.toList) 0

/-- Drop trailing characters from the Go cutset `" \t\n"`, the
`strings.TrimRight` call of `Between`. -/
def trimRightWS (l : List Char) : List Char :=
  (l.reverse.dropWhile fun c => c = ' ' || c = '\t' || c = '\n').reverse

/-- Join lines with a newline, Go `strings.Join(lines, "\n")`. -/
def joinNl : List (List Char) → List Char
  | [] => []
  | [l] => l
  | l :: ls => l ++ '\n' :: joinNl ls

/-- The slice `lines[s:e]` joined and right-trimmed, the tail of `Between`. -/
def renderSlice (ls : List (List Char)) (s e : Nat) : String :=
  String.mk (trimRightWS (joinNl ((ls.drop s).take (e - s))))

/-- Embedding of `Parser.Between`: the content between two version headers,
`none` standing for the `("", false)` result. -/
def Between (content oldVersion newVersion : String) : Option String :=
  let oldLine := LineForVersion content oldVersion
  let newLine := LineForVersion content newVersion
  let lines := splitOnNl content.toList
  if 0 ≤ oldLine ∧ 0 ≤ newLine then
    if oldLine < newLine then
      some (renderSlice lines oldLine.toNat lines.length)
    else
      some (renderSlice lines newLine.toNat oldLine.toNat)
  else if 0 ≤ oldLine then
    if oldLine = 0 then none
    else some (renderSlice lines 0 oldLine.toNat)
  else if 0 ≤ newLine then
    some (renderSlice lines newLine.toNat lines.length)
  else
    none

/-- The decision table of spec section 4.5, written from the spec text:
six rows keyed on whether each version was found and on the comparison of
the two line numbers, with the same joining and right-trimming of the
selected slice. -/
def betweenSpecTable (content oldVersion newVersion : String) : Option String :=
  let o := LineForVersion content oldVersion
  let n := LineForVersion content newVersion
  let lines := splitOnNl content.toList
  if 0 ≤ o ∧ 0 ≤ n ∧ o < n then some (renderSlice lines o.toNat lines.length)
  else if 0 ≤ o ∧ 0 ≤ n ∧ n ≤ o then some (renderSlice lines n.toNat o.toNat)
  else if 0 ≤ o ∧ n < 0 ∧ o = 0 then none
  else if 0 ≤ o ∧ n < 0 ∧ 0 < o then some (renderSlice lines 0 o.toNat)
  else if o < 0 ∧ 0 ≤ n then some (renderSlice lines n.toNat lines.length)
  else none

/-- Is the character at position `n` alphanumeric. -/
def alnumAt (s : List Char) (n : Nat) : Bool :=
  match s.get? n with
  | some c => isAlnumChar c
  | none => false

/-- Length matched by the token sub-pattern `[\w.+-]+\.[\w.+-]+[a-zA-Z0-9]`
at the head of `s`, under the longest-first backtracking order of the two
greedy plus quantifiers (outer choice: length of the first `[\w.+-]+`
factor, which must be followed by a literal dot; inner choice: length of
the second factor, followed by one alphanumeric character). -/
def tokenLen (s : List Char) : Option Nat :=
  let r := runLen isTokenChar s
  tryDown
    (fun a1 =>
      if s.get? a1 = some '.' then
        tryDown
          (fun a2 =>
            let e := a1 + a2 + 2
            if e ≤ r ∧ alnumAt s (e - 1) then some e else none)
          r
      else none)
    r

/-- A single pattern match: start and end offsets of the whole match in
the document, capture group 1 (the version token) and the optional
capture group 2 (the date text). -/
structure RMatch where
  mstart : Nat
  mend : Nat
  g1 : List Char
  g2 : Option (List Char)
deriving DecidableEq, Repr

/-- The optional date suffix `(?:\s+\((\d{4}-\d{2}-\d{2})\))?` of the
`markdownHeader` pattern: consumed length and the captured date text. -/
def dateSuffix (s : List Char) : Option (Nat × List Char) :=
  let w := runLen isSpaceRE s
  if 1 ≤ w then
    match s.drop w with
    | x :: rest =>
      if x = '(' then
        let d := rest.take 10
        if isoShape d ∧ rest.get? 10 = some ')' then some (w + 12, d) else none
      else none
    | [] => none
  else none

/-- The optional date suffix `(?:\s+-\s+(\d{4}-\d{2}-\d{2}))?` of the
`keepAChangelog` pattern. -/
def kacDateSuffix (s : List Char) : Option (Nat × List Char) :=
  let w := runLen isSpaceRE s
  if 1 ≤ w then
    match s.drop w with
    | '-' :: s2 =>
      let w2 := runLen isSpaceRE s2
      if 1 ≤ w2 then
        let d := (s2.drop w2).take 10
        if isoShape d then some (w + 1 + w2 + 10, d) else none
      else none
    | _ => none
  else none

/-- The `v?` choice of the `markdownHeader` pattern followed by the token
sub-pattern: consuming the lowercase `v` is tried first (greedy
priority), falling back to matching the token at the unconsumed text;
returns the `v` offset, the text where the token starts, and the token
length. -/
def vChoice : List Char → Option (Nat × List Char × Nat)
  | [] => (tokenLen []).map fun len => (0, ([] : List Char), len)
  | x :: s3 =>
    if x = 'v' then
      match tokenLen s3 with
      | some len => some (1, s3, len)
      | none => (tokenLen (x :: s3)).map fun len => (0, x :: s3, len)
    else
      (tokenLen (x :: s3)).map fun len => (0, x :: s3, len)

/-- Match of the `markdownHeader` pattern
`^#{1,3}\s+v?([\w.+-]+\.[\w.+-]+[a-zA-Z0-9])(?:\s+\((\d{4}-\d{2}-\d{2})\))?`
at a line-start position: total length, group 1, optional group 2. -/
def mdMatchAt (s : List Char) : Option (Nat × List Char × Option (List Char)) :=
  let h := runLen (fun c => c = '#') s
  if 1 ≤ h ∧ h ≤ 3 then
    let s1 := s.drop h
    let w := runLen isSpaceRE s1
    if 1 ≤ w then
      match vChoice (s1.drop w) with
      | some (voff, st, len) =>
        let g1 := st.take len
        match dateSuffix (st.drop len) with
        | some (dl, d) => some (h + w + voff + len + dl, g1, some d)
        | none => some (h + w + voff + len, g1, none)
      | none => none
    else none
  else none

/-- Match of the `keepAChangelog` pattern
`^##\s+\[([^\]]+)\](?:\s+-\s+(\d{4}-\d{2}-\d{2}))?` at a line-start
position. -/
def kacMatchAt (s : List Char) : Option (Nat × List Char × Option (List Char)) :=
  match s with
  | c1 :: c2 :: s1 =>
    if c1 = '#' ∧ c2 = '#' then
      let w := runLen isSpaceRE s1
      if 1 ≤ w then
        match s1.drop w with
        | x :: s2 =>
          if x = '[' then
            let b := runLen (fun c => !(c = ']')) s2
            if 1 ≤ b then
              match s2.drop b with
              | y :: s3 =>
                if y = ']' then
                  let g1 := s2.take b
                  match kacDateSuffix s3 with
                  | some (dl, d) => some (2 + w + 1 + b + 1 + dl, g1, some d)
                  | none => some (2 + w + 1 + b + 1, g1, none)
                else none
              | [] => none
            else none
          else none
        | [] => none
      else none
    else none
  | _ => none

/-- Match of the `underlineHeader` pattern
`^([\w.+-]+\.[\w.+-]+[a-zA-Z0-9])\n[=-]+` at a line-start position.  The
newline after the capture forces the capture to end exactly at the end of
the token-character run (no token character is a newline), so the run
must end in an alphanumeric character and contain an interior dot with at
least two token characters after it. -/
def ulMatchAt (s : List Char) : Option (Nat × List Char × Option (List Char)) :=
  let r := runLen isTokenChar s
  if 4 ≤ r ∧ alnumAt s (r - 1)
       ∧ (List.range r).any (fun i => decide (1 ≤ i) && decide (i + 3 ≤ r) && s.get? i = some '.') then
    match s.drop r with
    | x :: s2 =>
      if x = '\n' then
        let u := runLen (fun c => c = '=' || c = '-') s2
        if 1 ≤ u then some (r + 1 + u, s.take r, none) else none
      else none
    | [] => none
  else none

/-- Fuel-driven worker for `scanAll`: walk the document, attempting the
matcher at every position at the start of a line (position 0 or right
after a newline), and jump over each match found; this mirrors
`regexp.FindAllStringSubmatchIndex` for the line-anchored `(?m)^`
patterns. -/
def scanAllAux (matchAt : List Char → Option (Nat × List Char × Option (List Char))) :
    Nat → List Char → Bool → Nat → List RMatch
  | 0, _, _, _ => []
  | _ + 1, [], _, _ => []
  | fuel + 1, s@(c :: cs), atStart, i =>
    if atStart then
      match matchAt s with
      | some (len, g1, g2) =>
        if 1 ≤ len then
          ⟨i, i + len, g1, g2⟩ ::
            scanAllAux matchAt fuel (s.drop len) (s.get? (len - 1) = some '\n') (i + len)
        else
          scanAllAux matchAt fuel cs (c = '\n') (i + 1)
      | none => scanAllAux matchAt fuel cs (c = '\n') (i + 1)
    else
      scanAllAux matchAt fuel cs (c = '\n') (i + 1)

/-- All matches of a line-anchored pattern in the document, in document
order. -/
def scanAll (matchAt : List Char → Option (Nat × List Char × Option (List Char)))
    (s : List Char) : List RMatch :=
  scanAllAux matchAt s.length s true 0

/-- The matcher selected for a parser: one of the three built-in patterns
of the catalog, or a caller-supplied matcher given by its match list
function (the capture contract of `ParseWithPattern`). -/
inductive PatternP where
  | kac
  | md
  | ul
  | custom (findAll : String → List RMatch)

/-- All matches of the selected pattern in a document. -/
def findAllOf : PatternP → String → List RMatch
  | .kac, c => scanAll kacMatchAt c.toList
  | .md, c => scanAll mdMatchAt c.toList
  | .ul, c => scanAll ulMatchAt c.toList
  | .custom f, c => f c

/-- `keepAChangelog.MatchString` on the whole document. -/
def kacMatches (c : String) : Bool := !(scanAll kacMatchAt c.toList).isEmpty

/-- `underlineHeader.MatchString` on the whole document. -/
def ulMatches (c : String) : Bool := !(scanAll ulMatchAt c.toList).isEmpty

/-- Embedding of `Parser.detectFormat`: existence-based priority cascade,
Keep-a-Changelog first, then underline, then the markdown fallback. -/
def detectFormat (c : String) : PatternP :=
  if kacMatches c then .kac else if ulMatches c then .ul else .md

/-- The `Format` enumeration of the source. -/
inductive Format where
  | auto
  | keepAChangelog
  | markdown
  | underline

/-- Parsed calendar date, the result of Go `time.Parse("2006-01-02", s)`. -/
structure CDate where
  year : Nat
  month : Nat
  day : Nat
deriving DecidableEq, Repr

/-- Gregorian leap-year rule used by Go `time`. -/
def isLeap (y : Nat) : Bool :=
  (y % 4 = 0 && !(y % 100 = 0)) || y % 400 = 0

/-- Days in a month, as validated by Go `time.Parse`. -/
def daysIn (y m : Nat) : Nat :=
  if m = 2 then (if isLeap y then 29 else 28)
  else if m = 4 ∨ m = 6 ∨ m = 9 ∨ m = 11 then 30
  else 31

/-- Digits to a number, most significant first. -/
def digitsToNat (l : List Char) : Nat :=
  l.foldl (fun a c => a * 10 + (c.toNat - 48)) 0

/-- Embedding of `time.Parse("2006-01-02", s)`: the text must have the ISO
shape and denote a valid calendar date, otherwise no date. -/
def parseDateChars (l : List Char) : Option CDate :=
  if isoShape l then
    let y := digitsToNat (l.take 4)
    let m := digitsToNat ((l.drop 5).take 2)
    let d := digitsToNat ((l.drop 8).take 2)
    if 1 ≤ m ∧ m ≤ 12 ∧ 1 ≤ d ∧ d ≤ daysIn y m then some ⟨y, m, d⟩ else none
  else none

/-- The `Entry` record of the source: optional date and verbatim trimmed
content. -/
structure Entry where
  date : Option CDate
  content : String
deriving DecidableEq, Repr

/-- The `versionEntry` pair of the source. -/
structure VersionEntry where
  version : String
  entry : Entry
deriving DecidableEq, Repr

/-- Go `strings.TrimSpace` (ASCII whitespace). -/
def trimSpaceGo (l : List Char) : List Char :=
  ((l.dropWhile isGoSpace).reverse.dropWhile isGoSpace).reverse

/-- The per-match body of the `doParse` loop: version from group 1, date
from group 2, content from the end of this match to the start of the next
match (or end of document), trimmed. -/
def buildEntries (cl : List Char) (total : Nat) : List RMatch → List VersionEntry
  | [] => []
  | m :: rest =>
    let contentEnd := match rest with
      | m2 :: _ => m2.mstart
      | [] => total
    let body := trimSpaceGo ((cl.drop m.mend).take (contentEnd - m.mend))
    ⟨String.mk m.g1, ⟨m.g2.bind parseDateChars, String.mk body⟩⟩ ::
      buildEntries cl total rest

/-- Embedding of `Parser.doParse` over an explicit match list: an empty
document or an empty match list produces no entries. -/
def doParse (content : String) (ms : List RMatch) : List VersionEntry :=
  if content = "" then []
  else buildEntries content.toList content.toList.length ms

/-- The parser state: raw document and selected matcher.  The Go struct
memoizes the entry list; the embedding computes it on demand through
`entriesOf`, which is extensionally the same sequence. -/
structure Parser where
  content : String
  pattern : PatternP

/-- Embedding of `Parse`: automatic format detection. -/
def Parse (c : String) : Parser := ⟨c, detectFormat c⟩

/-- Embedding of `ParseWithFormat`. -/
def ParseWithFormat (c : String) (f : Format) : Parser :=
  match f with
  | .keepAChangelog => ⟨c, .kac⟩
  | .markdown => ⟨c, .md⟩
  | .underline => ⟨c, .ul⟩
  | .auto => ⟨c, detectFormat c⟩

/-- The memoized entry sequence of a parser. -/
def entriesOf (p : Parser) : List VersionEntry :=
  doParse p.content (findAllOf p.pattern p.content)

/-- Embedding of `Parser.Versions`. -/
def Versions (p : Parser) : List String :=
  (entriesOf p).map (·.version)

/-- The scan-until-match loop of `Parser.Entry`. -/
def entryLoop : List VersionEntry → String → Option Entry
  | [], _ => none
  | ve :: rest, v => if ve.version = v then some ve.entry else entryLoop rest v

/-- Embedding of `Parser.Entry`: first occurrence wins. -/
def EntryFor (p : Parser) (v : String) : Option Entry :=
  entryLoop (entriesOf p) v

/-- One Go map insertion, newer binding shadowing the older one. -/
def mapInsert (m : String → Option Entry) (k : String) (e : Entry) :
    String → Option Entry :=
  fun v => if v = k then some e else m v

/-- The map constructed by the `Parser.Entries` loop, as a lookup
function: entries are inserted in document order, so a later duplicate
overwrites an earlier one. -/
def entriesMap (l : List VersionEntry) : String → Option Entry :=
  l.foldl (fun m ve => mapInsert m ve.version ve.entry) (fun _ => none)

/-- Embedding of `Parser.Entries` as a lookup function on the resulting
map. -/
def Entries (p : Parser) (v : String) : Option Entry :=
  entriesMap (entriesOf p) v

/-- Go `strings.TrimSuffix` for a literal suffix. -/
def dropSuffix (suf l : List Char) : List Char :=
  if suf.isSuffixOf l then l.take (l.length - suf.length) else l

/-- Host and path of an absolute URL, modelling `net/url.Parse` for the
`scheme://host/path` shapes handled by `RawContentURL`: the host is the
authority between the first `://` and the following slash, the path is
the remainder including its leading slash.  A string without `://` parses
as a bare path with an empty host, as in Go. -/
def urlHostPath (u : List Char) : List Char × List Char :=
  match (occurrencesOf [':', '/', '/'] u).head? with
  | some i =>
    let rest := u.drop (i + 3)
    (rest.takeWhile (fun ch => !(ch = '/')), rest.dropWhile (fun ch => !(ch = '/')))
  | none => ([], u)

/-- Go `strings.SplitN(s, "/", n)` on a character list. -/
def splitNSlash : Nat → List Char → List (List Char)
  | 0, _ => []
  | 1, s => [s]
  | n + 2, s =>
    let a := s.takeWhile (fun c => !(c = '/'))
    let rest := s.dropWhile (fun c => !(c = '/'))
    match rest with
    | '/' :: tail => a :: splitNSlash (n + 1) tail
    | _ => [s]

/-- Go `strings.TrimPrefix(path, "/")`. -/
def trimLeadSlash : List Char → List Char
  | '/' :: rest => rest
  | l => l

/-- Embedding of `RawContentURL`: strips a trailing `.git` and a trailing
slash, extracts owner and repo from the URL path, and templates the raw
content URL per host; errors carry the Go error message text. -/
def RawContentURL (repoURL filename : String) : Except String String :=
  let u1 := dropSuffix ".git".toList repoURL.toList
  let u2 := dropSuffix "/".toList u1
  let hp := urlHostPath u2
  let parts := splitNSlash 3 (trimLeadSlash hp.2)
  if parts.length < 2 then
    .error ("cannot parse owner/repo from " ++ String.mk u2)
  else
    let owner := String.mk (parts.headD [])
    let repo := String.mk ((parts.drop 1).headD [])
    if String.mk hp.1 = "github.com" then
      .ok ("https://raw.githubusercontent.com/" ++ owner ++ "/" ++ repo ++ "/HEAD/" ++ filename)
    else if String.mk hp.1 = "gitlab.com" then
      .ok ("https://gitlab.com/" ++ owner ++ "/" ++ repo ++ "/-/raw/HEAD/" ++ filename)
    else
      .error ("unsupported host " ++ String.mk hp.1 ++ " (only github.com and gitlab.com are supported)")

/-- Embedding of `FetchAndParse` with the HTTP transport abstracted as a
function from the raw URL to either a failure or the body text: the raw
URL is constructed first and a construction failure is returned before
the transport is consulted. -/
def FetchAndParse (fetch : String → Except String String)
    (repoURL filename : String) : Except String Parser :=
  match RawContentURL repoURL filename with
  | .error e => .error e
  | .ok rawURL =>
    match fetch rawURL with
    | .error e => .error e
    | .ok body => .ok (Parse body)

/-- Token normalization as worded by the spec: strip exactly one leading
`v` or `V` character, a single-character strip that is not repeated.
This definition follows the spec text and is compared against the
`stripToken` normalization translated from the source. -/
def stripTokenSpecOnce : List Char → List Char
  | 'v' :: xs => xs
  | 'V' :: xs => xs
  | l => l

/-- The Version Locator with the spec-worded single-character strip in
place of the sequential double strip of the source. -/
def lineForVersionSpecOnce (content version : String) : Int :=
  if version = "" then -1
  else lineScan (stripTokenSpecOnce version.toList) (splitOnNl content.toList) 0

/-! ## Concrete documents used by the claim instances -/

/-- A document that declares the same version token twice. -/
def dupDoc : String :=
  "## [1.0.0] - 2024-01-01\n\nfirst\n\n## [1.0.0] - 2024-02-01\n\nsecond\n"

/-- A document with a 1.0.10 header and a 1.0.1 header. -/
def doc110 : String :=
  "## [1.0.10] - 2024-02-01\n\nContent for ten\n\n## [1.0.1] - 2024-01-01\n\nContent for one\n"

/-- The range-reference scenario document of the spec. -/
def docRange : String :=
  "Supports versions 1.0.0..2.0.0\n\n## [2.0.0]\n\nBody"

/-- A document with one underline-style header and two markdown-style
headers. -/
def umDoc : String :=
  "Intro\n\n2.0.0\n-----\nBody\n\n## 1.5.0\n\nMore\n\n## 1.4.0\n\nEtc\n"

/-- A document matched by no built-in header shape. -/
def plainDoc : String := "just some plain text\nwith no headers\n"

/-- A document out of calendar and lexical order. -/
def unorderedDoc : String :=
  "## [3.0.0] - 2024-03-01\n## [1.0.0] - 2024-01-01\n## [2.0.0] - 2024-02-01\n"

/-! ## Helper lemmas -/

/-- Lookup in the fold-built map is the last matching entry, i.e. the
first match in the reversed list, with the initial map as fallback. -/
theorem foldl_mapInsert_lookup (l : List VersionEntry)
    (m0 : String → Option Entry) (v : String) :
    (l.foldl (fun m ve => mapInsert m ve.version ve.entry) m0) v =
      match l.reverse.find? (fun ve => ve.version = v) with
      | some ve => some ve.entry
      | none => m0 v := by
  induction l generalizing m0 with
  | nil => simp
  | cons a l ih =>
    simp only [List.foldl_cons, List.reverse_cons]
    rw [ih]
    rcases h : l.reverse.find? (fun ve => ve.version = v) with _ | ve
    · rcases ha : (decide (a.version = v)) with _ | _
      · simp [List.find?_append, h, ha, mapInsert]
        intro hv
        simp [hv] at ha
      · simp [List.find?_append, h, ha, mapInsert]
        have : a.version = v := of_decide_eq_true ha
        simp [this]
    · simp [List.find?_append, h]

/-- The version fields of the built entries are the group-1 captures of
the matches, in order. -/
theorem buildEntries_map_version (cl : List Char) (total : Nat) (ms : List RMatch) :
    (buildEntries cl total ms).map (·.version) = ms.map fun m => String.mk m.g1 := by
  induction ms with
  | nil => rfl
  | cons m rest ih => simp [buildEntries, ih]

/-- A success of `tryDown` comes from `f` at some argument between 1 and
the bound. -/
theorem tryDown_some {α : Type} {f : Nat → Option α} {a : α} :
    ∀ {n : Nat}, tryDown f n = some a → ∃ k, 1 ≤ k ∧ k ≤ n ∧ f k = some a := by
  intro n
  induction n with
  | zero => intro h; cases h
  | succ n ih =>
    intro h
    unfold tryDown at h
    rcases hf : f (n + 1) with _ | b
    · rw [hf] at h
      simp only [Option.orElse] at h
      obtain ⟨k, h1, h2, h3⟩ := ih h
      exact ⟨k, h1, by omega, h3⟩
    · rw [hf] at h
      simp only [Option.orElse] at h
      cases h
      exact ⟨n + 1, by omega, by omega, hf⟩

/-- Every reported occurrence position is a genuine occurrence of the
literal pattern. -/
theorem occurrencesAux_sound (p : List Char) :
    ∀ (fuel : Nat) (l : List Char) (i j : Nat),
      j ∈ occurrencesAux p fuel l i →
      i ≤ j ∧ (stripPfx p (l.drop (j - i))).isSome = true := by
  intro fuel
  induction fuel with
  | zero => intro l i j h; cases h
  | succ fuel ih =>
    intro l i j h
    match l with
    | [] => cases h
    | c :: cs =>
      unfold occurrencesAux at h
      split_ifs at h with hc
      · rcases List.mem_cons.mp h with rfl | hmem
        · simpa using hc.2
        · obtain ⟨h1, h2⟩ := ih _ _ _ hmem
          refine ⟨by omega, ?_⟩
          rw [List.drop_drop] at h2
          have harith : p.length + (j - (i + p.length)) = j - i := by omega
          rwa [harith] at h2
      · obtain ⟨h1, h2⟩ := ih _ _ _ h
        refine ⟨by omega, ?_⟩
        have harith : j - i = (j - (i + 1)) + 1 := by omega
        rw [harith, List.drop_succ_cons]
        exact h2

/-- The boundary characterization of `containsVersion`: a true result
exhibits an occurrence whose neighbours satisfy the boundary rules. -/
theorem containsVersion_boundary (line p : List Char) (_hp : p ≠ [])
    (h : containsVersion line p = true) :
    ∃ s, (stripPfx p (line.drop s)).isSome = true ∧
      (∀ prev, s ≠ 0 → line.get? (s - 1) = some prev →
        prev ≠ '.' ∧ (isWordChar prev = true → prev = 'v' ∨ prev = 'V')) ∧
      (∀ next, line.get? (s + p.length) = some next →
        next ≠ '.' ∧ next ≠ '-' ∧ isWordChar next = false) := by
  unfold containsVersion at h
  obtain ⟨s, hmem, hb⟩ := List.any_eq_true.mp h
  obtain ⟨-, hocc⟩ := occurrencesAux_sound p line.length line 0 s hmem
  rw [Nat.sub_zero] at hocc
  refine ⟨s, hocc, ?_, ?_⟩
  · intro prev hs0 hget
    unfold boundaryOk at hb
    rw [Bool.and_eq_true] at hb
    have h1 := hb.1
    rw [Bool.or_eq_true] at h1
    rcases h1 with h1 | h1
    · exact absurd (of_decide_eq_true h1) hs0
    · rw [hget] at h1
      rw [Bool.and_eq_true] at h1
      refine ⟨by simpa using h1.1, ?_⟩
      intro hw
      have h2 := h1.2
      rw [Bool.or_eq_true, Bool.or_eq_true] at h2
      rcases h2 with (h2 | h2) | h2
      · rw [hw] at h2; cases h2
      · exact Or.inl (by simpa using h2)
      · exact Or.inr (by simpa using h2)
  · intro next hget
    unfold boundaryOk at hb
    rw [Bool.and_eq_true] at hb
    have h2 := hb.2
    rw [hget] at h2
    simp only [Bool.not_eq_true', Bool.or_eq_false_iff, decide_eq_false_iff_not] at h2
    exact ⟨h2.1.1, h2.1.2, h2.2⟩

/-- A found line of the locator scan satisfies the per-line test, with the
following line as underline candidate. -/
theorem lineScan_found (sv : List Char) :
    ∀ (ls : List (List Char)) (i j : Nat),
      lineScan sv ls i = Int.ofNat j →
      i ≤ j ∧ ∃ l, ls.get? (j - i) = some l ∧
        lineMatches sv l ((ls.drop (j - i + 1)).head?) = true := by
  intro ls
  induction ls with
  | nil => intro i j h; cases h
  | cons l rest ih =>
    intro i j h
    unfold lineScan at h
    split_ifs at h with hm
    · have : i = j := by
        have := Int.ofNat.inj h
        omega
      subst this
      refine ⟨le_refl _, l, by simp, ?_⟩
      simpa using hm
    · obtain ⟨h1, l', hget, hmatch⟩ := ih (i + 1) j h
      refine ⟨by omega, l', ?_, ?_⟩
      · have harith : j - i = (j - (i + 1)) + 1 := by omega
        rw [harith]
        simpa using hget
      · have harith : j - i + 1 = (j - (i + 1) + 1) + 1 := by omega
        rw [harith, List.drop_succ_cons]
        exact hmatch

/-- The run length is bounded by the list length. -/
theorem runLen_le_length (p : Char → Bool) :
    ∀ l : List Char, runLen p l ≤ l.length := by
  intro l
  induction l with
  | nil => simp [runLen]
  | cons c cs ih =>
    unfold runLen
    split_ifs <;> simp <;> omega

/-- Every position below the run length carries a character satisfying
the run predicate. -/
theorem runLen_all (p : Char → Bool) :
    ∀ (l : List Char) (i : Nat), i < runLen p l →
      ∃ c, l.get? i = some c ∧ p c = true := by
  intro l
  induction l with
  | nil => intro i h; simp [runLen] at h
  | cons c cs ih =>
    intro i h
    unfold runLen at h
    split_ifs at h with hc
    · match i with
      | 0 => exact ⟨c, rfl, hc⟩
      | i + 1 =>
        obtain ⟨c', h1, h2⟩ := ih i (by omega)
        exact ⟨c', h1, h2⟩
    · omega

/-- A successful token match has length at least 4, stays inside the
token-character run, has a dot at an interior position with at least two
positions following it inside the match, and ends in an alphanumeric
character. -/
theorem tokenLen_sound {s : List Char} {L : Nat} (h : tokenLen s = some L) :
    ∃ a1, 1 ≤ a1 ∧ a1 + 3 ≤ L ∧ L ≤ runLen isTokenChar s ∧
      s.get? a1 = some '.' ∧ alnumAt s (L - 1) = true := by
  unfold tokenLen at h
  dsimp only at h
  obtain ⟨a1, ha1, ha1r, hf⟩ := tryDown_some h
  by_cases hdot : s.get? a1 = some '.'
  · rw [if_pos hdot] at hf
    obtain ⟨a2, ha2, ha2r, hg⟩ := tryDown_some hf
    by_cases hcond : a1 + a2 + 2 ≤ runLen isTokenChar s ∧
        alnumAt s (a1 + a2 + 2 - 1) = true
    · rw [if_pos hcond] at hg
      cases hg
      exact ⟨a1, ha1, by omega, hcond.1, hdot, hcond.2⟩
    · rw [if_neg hcond] at hg
      cases hg
  · rw [if_neg hdot] at hf
    cases hf

/-- `findIdx` is minimal: any position holding a satisfying element
bounds it from above. -/
theorem findIdx_le_of_get? (p : Char → Bool) :
    ∀ (l : List Char) (j : Nat) (a : Char),
      l.get? j = some a → p a = true → l.findIdx p ≤ j := by
  intro l
  induction l with
  | nil => intro j a h; cases h
  | cons c cs ih =>
    intro j a h hp
    match j with
    | 0 =>
      cases h
      rw [List.findIdx_cons, hp]
      simp
    | j + 1 =>
      rw [List.findIdx_cons]
      cases hc : p c
      · simpa using Nat.succ_le_succ (ih j a (by simpa using h) hp)
      · simp

/-- The token of a successful token match contains a dot with at least
two characters after the first dot, expressed on the captured text
`s.take L`. -/
theorem tokenLen_first_dot {s : List Char} {L : Nat} (h : tokenLen s = some L) :
    (s.take L).findIdx (fun c => c = '.') + 3 ≤ (s.take L).length := by
  obtain ⟨a1, h1, h2, h3, hdot, -⟩ := tokenLen_sound h
  have hLlen : L ≤ s.length := (le_trans h3 (runLen_le_length _ s))
  have htake : (s.take L).length = L := by
    rw [List.length_take]
    omega
  have hget : (s.take L).get? a1 = some '.' := by
    rw [List.get?_take (by omega : a1 < L)]
    exact hdot
  have hle := findIdx_le_of_get? (fun c => c = '.') (s.take L) a1 '.' hget (by simp)
  omega

/-- Unpacking of the `v?`-choice: the token is matched either at the
unconsumed text or right after one consumed lowercase `v`. -/
theorem vChoice_sound {s2 : List Char} {voff : Nat} {st : List Char} {L : Nat}
    (h : vChoice s2 = some (voff, st, L)) :
    tokenLen st = some L ∧ ((voff = 0 ∧ st = s2) ∨ (voff = 1 ∧ s2 = 'v' :: st)) := by
  match s2 with
  | [] =>
    rw [show vChoice [] = (tokenLen []).map fun len => (0, ([] : List Char), len) from rfl] at h
    rcases ht : tokenLen ([] : List Char) with _ | L'
    · rw [ht] at h; cases h
    · rw [ht] at h
      simp only [Option.map_some'] at h
      cases h
      exact ⟨ht, Or.inl ⟨rfl, rfl⟩⟩
  | x :: s3 =>
    rw [show vChoice (x :: s3) =
        (if x = 'v' then
          match tokenLen s3 with
          | some len => some (1, s3, len)
          | none => (tokenLen (x :: s3)).map fun len => (0, x :: s3, len)
        else (tokenLen (x :: s3)).map fun len => (0, x :: s3, len)) from rfl] at h
    split_ifs at h with hx
    · subst hx
      rcases ht : tokenLen s3 with _ | L'
      · rw [ht] at h
        rcases ht2 : tokenLen ('v' :: s3) with _ | L2
        · rw [ht2] at h; cases h
        · rw [ht2] at h
          simp only [Option.map_some'] at h
          cases h
          exact ⟨ht2, Or.inl ⟨rfl, rfl⟩⟩
      · rw [ht] at h
        cases h
        exact ⟨ht, Or.inr ⟨rfl, rfl⟩⟩
    · rcases ht : tokenLen (x :: s3) with _ | L'
      · rw [ht] at h; cases h
      · rw [ht] at h
        simp only [Option.map_some'] at h
        cases h
        exact ⟨ht, Or.inl ⟨rfl, rfl⟩⟩

/-- The captured date of the optional markdown date suffix has the ISO
shape. -/
theorem dateSuffix_iso {s : List Char} {dl : Nat} {d : List Char}
    (h : dateSuffix s = some (dl, d)) : isoShape d = true := by
  unfold dateSuffix at h
  dsimp only at h
  by_cases hw : 1 ≤ runLen isSpaceRE s
  · rw [if_pos hw] at h
    rcases hdrop : s.drop (runLen isSpaceRE s) with _ | ⟨x, rest⟩ <;> rw [hdrop] at h
    · cases h
    · dsimp only at h
      by_cases hx : x = '('
      · rw [if_pos hx] at h
        by_cases hiso : isoShape (rest.take 10) ∧ rest.get? 10 = some ')'
        · rw [if_pos hiso] at h
          cases h
          exact hiso.1
        · rw [if_neg hiso] at h
          cases h
      · rw [if_neg hx] at h
        cases h
  · rw [if_neg hw] at h
    cases h

/-- Full structural unpacking of a markdown-header match: one to three
hash marks, mandatory whitespace, the optional consumed lowercase `v`,
the token match, and an ISO-shaped optional date. -/
theorem mdMatchAt_structure {s : List Char} {len : Nat} {g1 : List Char}
    {g2 : Option (List Char)} (h : mdMatchAt s = some (len, g1, g2)) :
    ∃ (hn w voff : Nat) (st : List Char) (L : Nat),
      hn = runLen (fun c => c = '#') s ∧ 1 ≤ hn ∧ hn ≤ 3 ∧
      w = runLen isSpaceRE (s.drop hn) ∧ 1 ≤ w ∧
      ((voff = 0 ∧ st = (s.drop hn).drop w) ∨
        (voff = 1 ∧ (s.drop hn).drop w = 'v' :: st)) ∧
      tokenLen st = some L ∧ g1 = st.take L ∧
      (∀ d, g2 = some d → isoShape d = true) := by
  unfold mdMatchAt at h
  dsimp only at h
  by_cases h1 : 1 ≤ runLen (fun c => c = '#') s ∧ runLen (fun c => c = '#') s ≤ 3
  · rw [if_pos h1] at h
    by_cases h2 : 1 ≤ runLen isSpaceRE (s.drop (runLen (fun c => c = '#') s))
    · rw [if_pos h2] at h
      rcases hv : vChoice ((s.drop (runLen (fun c => c = '#') s)).drop
          (runLen isSpaceRE (s.drop (runLen (fun c => c = '#') s)))) with _ | ⟨voff, st, L⟩ <;>
        rw [hv] at h
      · cases h
      · dsimp only at h
        obtain ⟨htok, hplace⟩ := vChoice_sound hv
        rcases hd : dateSuffix (st.drop L) with _ | ⟨dl, d⟩ <;> rw [hd] at h
        · cases h
          exact ⟨_, _, voff, st, L, rfl, h1.1, h1.2, rfl, h2, hplace, htok, rfl,
            fun d hd2 => by cases hd2⟩
        · cases h
          refine ⟨_, _, voff, st, L, rfl, h1.1, h1.2, rfl, h2, hplace, htok, rfl, ?_⟩
          intro d2 hd2
          cases hd2
          exact dateSuffix_iso hd
    · rw [if_neg h2] at h
      cases h
  · rw [if_neg h1] at h
    cases h

/-- An underline-header match also satisfies the interior-dot property on
its capture. -/
theorem ulMatchAt_dot {s : List Char} {len : Nat} {g1 : List Char}
    {g2 : Option (List Char)} (h : ulMatchAt s = some (len, g1, g2)) :
    g1.findIdx (fun c => c = '.') + 3 ≤ g1.length := by
  unfold ulMatchAt at h
  dsimp only at h
  split_ifs at h with hc
  · rcases hdrop : s.drop (runLen isTokenChar s) with _ | ⟨x, s2⟩ <;> rw [hdrop] at h
    · cases h
    · dsimp only at h
      by_cases hx : x = '\n'
      · rw [if_pos hx] at h
        by_cases hu : 1 ≤ runLen (fun c => c = '=' || c = '-') s2
        · rw [if_pos hu] at h
          cases h
          obtain ⟨i, hmem, hcond⟩ := List.any_eq_true.mp hc.2.2
          rw [Bool.and_eq_true, Bool.and_eq_true] at hcond
          have hi1 : 1 ≤ i := of_decide_eq_true hcond.1.1
          have hi3 : i + 3 ≤ runLen isTokenChar s := of_decide_eq_true hcond.1.2
          have hidot : s.get? i = some '.' := of_decide_eq_true hcond.2
          have hrlen : runLen isTokenChar s ≤ s.length := runLen_le_length _ s
          have htlen : (s.take (runLen isTokenChar s)).length = runLen isTokenChar s := by
            rw [List.length_take]; omega
          have hget : (s.take (runLen isTokenChar s)).get? i = some '.' := by
            rw [List.get?_take (by omega : i < runLen isTokenChar s)]
            exact hidot
          have := findIdx_le_of_get? (fun c => c = '.') _ i '.' hget (by simp)
          omega
        · rw [if_neg hu] at h
          cases h
      · rw [if_neg hx] at h
        cases h

/-- The stop run of the bracket capture is exactly the bracketed text when
that text holds no closing bracket. -/
theorem runLen_notRB (t rest : List Char) (h : ∀ c ∈ t, c ≠ ']') :
    runLen (fun c => !(c = ']')) (t ++ ']' :: rest) = t.length := by
  induction t with
  | nil => simp [runLen]
  | cons x xs ih =>
    have hx : x ≠ ']' := h x (by simp)
    simp only [List.cons_append, runLen]
    rw [if_pos (by simpa using hx)]
    simp only [List.append_eq]
    rw [ih (fun c hc => h c (by simp [hc]))]
    simp

/-- A Keep-a-Changelog header accepts any non-empty bracketed token, with
the whole token as capture group 1. -/
theorem kacMatchAt_bracket (t : List Char) (hne : t ≠ [])
    (hnb : ∀ c ∈ t, c ≠ ']') :
    kacMatchAt ('#' :: '#' :: ' ' :: '[' :: (t ++ [']'])) =
      some (t.length + 5, t, none) := by
  have hred : kacMatchAt ('#' :: '#' :: ' ' :: '[' :: (t ++ [']'])) =
      (if 1 ≤ runLen (fun c => !(c = ']')) (t ++ [']']) then
        match (t ++ [']']).drop (runLen (fun c => !(c = ']')) (t ++ [']'])) with
        | y :: s3 =>
          if y = ']' then
            match kacDateSuffix s3 with
            | some (dl, d) =>
              some (2 + 1 + 1 + runLen (fun c => !(c = ']')) (t ++ [']']) + 1 + dl,
                (t ++ [']']).take (runLen (fun c => !(c = ']')) (t ++ [']'])), some d)
            | none =>
              some (2 + 1 + 1 + runLen (fun c => !(c = ']')) (t ++ [']']) + 1,
                (t ++ [']']).take (runLen (fun c => !(c = ']')) (t ++ [']'])), none)
          else none
        | [] => none
      else none) := rfl
  rw [hred, runLen_notRB t [] hnb,
    if_pos (show 1 ≤ t.length from List.length_pos.mpr hne), List.drop_left,
    List.take_left]
  dsimp only
  rw [if_pos rfl]
  have harith : 2 + 1 + 1 + t.length + 1 = t.length + 5 := by omega
  rw [show kacDateSuffix [] = none from rfl, harith]

/-! ## Claim C1: the decision table of the Range Extractor -/

/-- C1.  For every document and pair of version tokens, `Between` resolves
both tokens through the Version Locator and follows the six-row decision
table of the spec: both found ascending gives lines from the old line to
the end of the document; both found descending gives the new line up to
the old line exclusive; only old found at line 0 gives not found; only
old found at a positive line gives lines from 0 up to the old line; only
new found gives the new line to the end; neither gives not found; the
selected lines are joined with their newlines and right-trimmed of
trailing whitespace. -/
theorem between_follows_spec_table (content oldVersion newVersion : String) :
    Between content oldVersion newVersion =
      betweenSpecTable content oldVersion newVersion := by
  unfold Between betweenSpecTable
  dsimp only
  split_ifs <;> first | rfl | omega

/-! ## Claim C10: raw content URL construction -/

/-- C10.  `RawContentURL` fails with the distinct malformed-URL error when
the path has fewer than two segments and with the distinct
unsupported-host error for hosts other than github.com and gitlab.com
(so any success implies a supported host and at least two path
segments); a construction failure is surfaced by `FetchAndParse`
unchanged, for every possible transport, hence before any network
request; on a supported host the templated URL is returned, as in the
concrete github.com example. -/
theorem rawContentURL_spec :
    RawContentURL "https://github.com/a/b.git" "CHANGELOG.md" =
      .ok "https://raw.githubusercontent.com/a/b/HEAD/CHANGELOG.md" ∧
    RawContentURL "https://bitbucket.org/a/b" "x" =
      .error "unsupported host bitbucket.org (only github.com and gitlab.com are supported)" ∧
    RawContentURL "https://github.com/" "CHANGELOG.md" =
      .error "cannot parse owner/repo from https://github.com" ∧
    ("unsupported host bitbucket.org (only github.com and gitlab.com are supported)" ≠
      "cannot parse owner/repo from https://github.com") ∧
    (∀ (fetch : String → Except String String) (u f e : String),
        RawContentURL u f = .error e → FetchAndParse fetch u f = .error e) ∧
    (∀ (u f s : String), RawContentURL u f = .ok s →
        2 ≤ (splitNSlash 3 (trimLeadSlash
              (urlHostPath (dropSuffix "/".toList (dropSuffix ".git".toList u.toList))).2)).length ∧
          (String.mk (urlHostPath (dropSuffix "/".toList (dropSuffix ".git".toList u.toList))).1 = "github.com" ∨
           String.mk (urlHostPath (dropSuffix "/".toList (dropSuffix ".git".toList u.toList))).1 = "gitlab.com")) := by
  refine ⟨by rfl, by rfl, by rfl, by decide, ?_, ?_⟩
  · intro fetch u f e h
    unfold FetchAndParse
    rw [h]
  · intro u f s h
    unfold RawContentURL at h
    dsimp only at h
    split_ifs at h with h1 h2 h3 <;>
      first
        | exact ⟨by omega, Or.inl (by assumption)⟩
        | exact ⟨by omega, Or.inr (by assumption)⟩

/-- Witness for `rawContentURL_spec`: the failure of the bitbucket URL is
surfaced by `FetchAndParse` without consulting the transport. -/
theorem rawContentURL_spec_witness :
    RawContentURL "https://bitbucket.org/a/b" "x" =
      .error "unsupported host bitbucket.org (only github.com and gitlab.com are supported)" ∧
    FetchAndParse (fun _ => .ok "## [1.0.0]\n") "https://bitbucket.org/a/b" "x" =
      .error "unsupported host bitbucket.org (only github.com and gitlab.com are supported)" :=
  ⟨by rfl, rawContentURL_spec.2.2.2.2.1 _ "https://bitbucket.org/a/b" "x" _ (by rfl)⟩

/-! ## Claim C2: boundary-valid occurrences of the Version Locator -/

/-- C2.  A true `containsVersion` result exhibits an occurrence of the
token whose preceding character, when present, is neither a dot nor a
word character other than `v` or `V`, and whose following character,
when present, is neither a dot, a dash, nor a word character;
consequently on the document with both a 1.0.10 header and a 1.0.1
header the locator returns line 0 for 1.0.10 and line 4 for 1.0.1,
never conflating the two. -/
theorem locator_boundary_valid :
    (∀ (line p : List Char), p ≠ [] → containsVersion line p = true →
      ∃ s, (stripPfx p (line.drop s)).isSome = true ∧
        (∀ prev, s ≠ 0 → line.get? (s - 1) = some prev →
          prev ≠ '.' ∧ (isWordChar prev = true → prev = 'v' ∨ prev = 'V')) ∧
        (∀ next, line.get? (s + p.length) = some next →
          next ≠ '.' ∧ next ≠ '-' ∧ isWordChar next = false)) ∧
    LineForVersion doc110 "1.0.10" = 0 ∧
    LineForVersion doc110 "1.0.1" = 4 :=
  ⟨fun line p hp h => containsVersion_boundary line p hp h, by decide, by decide⟩

/-- Witness for `locator_boundary_valid`: the boundary characterization
applied to a concrete header line and token. -/
theorem locator_boundary_valid_witness :
    ∃ s, (stripPfx "1.0.1".toList ("## [1.0.1]".toList.drop s)).isSome = true ∧
      (∀ prev, s ≠ 0 → "## [1.0.1]".toList.get? (s - 1) = some prev →
        prev ≠ '.' ∧ (isWordChar prev = true → prev = 'v' ∨ prev = 'V')) ∧
      (∀ next, "## [1.0.1]".toList.get? (s + "1.0.1".toList.length) = some next →
        next ≠ '.' ∧ next ≠ '-' ∧ isWordChar next = false) :=
  locator_boundary_valid.1 "## [1.0.1]".toList "1.0.1".toList (by decide) (by decide)

/-! ## Claim C5: range tokens are never reported as header lines -/

/-- C5.  Whenever the locator reports a line, that line does not contain
the stripped token immediately followed by two dots (the `rangeRe`
line veto), so a version-range reference is never reported as a header
line; on the concrete range document the locator skips line 0 and
returns the header line 2. -/
theorem locator_skips_range_lines :
    (∀ (content version : String) (j : Nat),
      LineForVersion content version = Int.ofNat j →
      hasRangeToken (stripToken version.toList)
        (((splitOnNl content.toList)).getD j []) = false) ∧
    LineForVersion docRange "2.0.0" = 2 := by
  refine ⟨?_, by decide⟩
  intro content version j h
  unfold LineForVersion at h
  by_cases hv : version = ""
  · rw [if_pos hv] at h
    exact absurd ((Int.ofNat_nonneg j).trans_eq h.symm) (by decide)
  · rw [if_neg hv] at h
    obtain ⟨-, l, hget, hmatch⟩ := lineScan_found _ _ 0 j h
    rw [Nat.sub_zero] at hget
    rw [List.getD_eq_get?, hget]
    unfold lineMatches at hmatch
    rw [Bool.and_eq_true, Bool.and_eq_true] at hmatch
    have := hmatch.1.2
    rwa [Bool.not_eq_true'] at this

/-- Witness for `locator_skips_range_lines`: the range veto evaluated at
the found header line of the concrete range document. -/
theorem locator_skips_range_lines_witness :
    hasRangeToken (stripToken "2.0.0".toList)
      ((splitOnNl docRange.toList).getD 2 []) = false :=
  locator_skips_range_lines.1 docRange "2.0.0" 2 (by decide)

/-! ## Claim C6: minimum-length asymmetry of the token shapes -/

/-- C6.  Any version token captured by the markdown-header or underline
matcher has at least two characters after its first dot (the first dot
index plus three is bounded by the token length); the token `1.0`, with a
single character after the dot, matches under neither of those two
shapes; the bracketed Keep-a-Changelog shape accepts every non-empty
bracketed token, with no minimum length. -/
theorem token_min_length_asymmetry :
    (∀ (s : List Char) (len : Nat) (g1 : List Char) (g2 : Option (List Char)),
        mdMatchAt s = some (len, g1, g2) →
        g1.findIdx (fun c => c = '.') + 3 ≤ g1.length) ∧
    (∀ (s : List Char) (len : Nat) (g1 : List Char) (g2 : Option (List Char)),
        ulMatchAt s = some (len, g1, g2) →
        g1.findIdx (fun c => c = '.') + 3 ≤ g1.length) ∧
    mdMatchAt "## 1.0".toList = none ∧
    ulMatchAt "1.0\n====".toList = none ∧
    (∀ t : List Char, t ≠ [] → (∀ c ∈ t, c ≠ ']') →
        kacMatchAt ('#' :: '#' :: ' ' :: '[' :: (t ++ [']'])) =
          some (t.length + 5, t, none)) := by
  refine ⟨?_, ?_, by decide, by decide, kacMatchAt_bracket⟩
  · intro s len g1 g2 h
    obtain ⟨hn, w, voff, st, L, -, -, -, -, -, -, htok, hg1, -⟩ := mdMatchAt_structure h
    subst hg1
    exact tokenLen_first_dot htok
  · intro s len g1 g2 h
    exact ulMatchAt_dot h

/-- Witness for `token_min_length_asymmetry`: the markdown matcher run on
a concrete header, and the Keep-a-Changelog matcher on a single-character
bracketed token (below the markdown minimum). -/
theorem token_min_length_asymmetry_witness :
    ("1.0.0".toList.findIdx (fun c => c = '.') + 3 ≤ "1.0.0".toList.length) ∧
    kacMatchAt ('#' :: '#' :: ' ' :: '[' :: (['X'] ++ [']'])) =
      some (6, ['X'], none) :=
  ⟨token_min_length_asymmetry.1 "## 1.0.0".toList 8 "1.0.0".toList none (by decide),
   token_min_length_asymmetry.2.2.2.2 ['X'] (by decide) (by decide)⟩

/-! ## Claim C7: the markdown-header shape -/

/-- Counterexample to C7 as stated: the markdown matcher recognizes only
a lowercase `v` prefix; on the header `## V1.0.0` the uppercase `V` is
not excluded but captured as part of the version token, so the captured
token is `V1.0.0` and not `1.0.0`. -/
theorem md_upper_v_counterexample :
    mdMatchAt "## V1.0.0".toList = some (9, "V1.0.0".toList, none) ∧
    Versions (ParseWithFormat "## V1.0.0" Format.markdown) = ["V1.0.0"] ∧
    (("V1.0.0" : String) == "1.0.0") = false := by
  refine ⟨by decide, by decide, by decide⟩

/-- C7 (amended).  Every markdown-header match decomposes as one to three
hash marks, mandatory whitespace, an optional lowercase `v` prefix
excluded from the capture (an uppercase `V` is not a recognized prefix
and stays inside the token), then the captured version token, which
contains a dot and whose final character is alphanumeric, and the
optional capture group 2 has the ISO calendar date shape. -/
theorem md_header_shape :
    ∀ (s : List Char) (len : Nat) (g1 : List Char) (g2 : Option (List Char)),
      mdMatchAt s = some (len, g1, g2) →
      ∃ (hn : Nat) (ws vpre rest : List Char),
        s = List.replicate hn '#' ++ ws ++ vpre ++ (g1 ++ rest) ∧
        1 ≤ hn ∧ hn ≤ 3 ∧
        ws ≠ [] ∧ (∀ c ∈ ws, isSpaceRE c = true) ∧
        (vpre = ['v'] ∨ vpre = []) ∧
        '.' ∈ g1 ∧
        (∃ c, g1.get? (g1.length - 1) = some c ∧ isAlnumChar c = true) ∧
        (∀ d, g2 = some d → isoShape d = true) := by
  intro s len g1 g2 h
  obtain ⟨hn, w, voff, st, L, hhn, h1, h3, hw, hw1, hplace, htok, hg1, hiso⟩ :=
    mdMatchAt_structure h
  have hhl : hn ≤ s.length := hhn ▸ runLen_le_length _ s
  have hwl : w ≤ (s.drop hn).length := hw ▸ runLen_le_length _ (s.drop hn)
  -- the hash-mark segment
  have hhash : s.take hn = List.replicate hn '#' := by
    rw [List.eq_replicate]
    refine ⟨by rw [List.length_take]; omega, ?_⟩
    intro b hb
    obtain ⟨i, hi⟩ := List.mem_iff_get?.mp hb
    have hilt : i < hn := by
      obtain ⟨hlt, -⟩ := List.get?_eq_some.mp hi
      rw [List.length_take] at hlt
      omega
    rw [List.get?_take hilt] at hi
    obtain ⟨c, hc1, hc2⟩ := runLen_all _ s i (hhn ▸ hilt)
    rw [hc1] at hi
    cases hi
    exact of_decide_eq_true hc2
  -- the whitespace segment
  have hws : ∀ c ∈ (s.drop hn).take w, isSpaceRE c = true := by
    intro b hb
    obtain ⟨i, hi⟩ := List.mem_iff_get?.mp hb
    have hilt : i < w := by
      obtain ⟨hlt, -⟩ := List.get?_eq_some.mp hi
      rw [List.length_take] at hlt
      omega
    rw [List.get?_take hilt] at hi
    obtain ⟨c, hc1, hc2⟩ := runLen_all _ (s.drop hn) i (hw ▸ hilt)
    rw [hc1] at hi
    cases hi
    exact hc2
  have hwsne : (s.drop hn).take w ≠ [] := by
    intro hcon
    have hlen := congrArg List.length hcon
    rw [List.length_take] at hlen
    simp only [List.length_nil] at hlen
    omega
  -- token bounds
  obtain ⟨a1, ha11, ha13, haL, hdot, halnum⟩ := tokenLen_sound htok
  have hLst : L ≤ st.length := le_trans haL (runLen_le_length _ st)
  have hg1len : g1.length = L := by
    rw [hg1, List.length_take]
    omega
  have hdotmem : '.' ∈ g1 := by
    rw [hg1]
    have : (st.take L).get? a1 = some '.' := by
      rw [List.get?_take (by omega : a1 < L)]
      exact hdot
    exact List.get?_mem this
  have hlast : ∃ c, g1.get? (g1.length - 1) = some c ∧ isAlnumChar c = true := by
    unfold alnumAt at halnum
    rcases hg : st.get? (L - 1) with _ | c
    · rw [hg] at halnum
      cases halnum
    · rw [hg] at halnum
      refine ⟨c, ?_, halnum⟩
      rw [hg1len, hg1, List.get?_take (by omega : L - 1 < L)]
      exact hg
  -- assemble the decomposition
  refine ⟨hn, (s.drop hn).take w, if voff = 1 then ['v'] else [], st.drop L,
    ?_, h1, h3, hwsne, hws, ?_, hdotmem, hlast, hiso⟩
  · have e1 : s = s.take hn ++ s.drop hn := (List.take_append_drop hn s).symm
    have e2 : s.drop hn = (s.drop hn).take w ++ (s.drop hn).drop w :=
      (List.take_append_drop w (s.drop hn)).symm
    have e3 : st = st.take L ++ st.drop L := (List.take_append_drop L st).symm
    rw [hg1]
    rcases hplace with ⟨hv0, hst⟩ | ⟨hv1, hst⟩
    · have hv : (if voff = 1 then ['v'] else ([] : List Char)) = [] := by
        rw [if_neg (by omega)]
      have hst2 : (s.drop hn).drop w = st := hst.symm
      rw [hv]
      conv_lhs => rw [e1, e2, hst2, e3]
      rw [hhash]
      simp [List.append_assoc]
    · have hv : (if voff = 1 then ['v'] else ([] : List Char)) = ['v'] := by
        rw [if_pos hv1]
      rw [hv]
      conv_lhs => rw [e1, e2, hst, e3]
      rw [hhash]
      simp [List.append_assoc]
  · rcases hplace with ⟨hv0, -⟩ | ⟨hv1, -⟩
    · rw [hv0]
      simp
    · rw [hv1]
      simp

/-- Witness for `md_header_shape` at the concrete header `## v1.0.0`. -/
theorem md_header_shape_witness :
    ∃ (hn : Nat) (ws vpre rest : List Char),
      "## v1.0.0".toList =
          List.replicate hn '#' ++ ws ++ vpre ++ ("1.0.0".toList ++ rest) ∧
        1 ≤ hn ∧ hn ≤ 3 ∧
        ws ≠ [] ∧ (∀ c ∈ ws, isSpaceRE c = true) ∧
        (vpre = ['v'] ∨ vpre = []) ∧
        '.' ∈ "1.0.0".toList ∧
        (∃ c, "1.0.0".toList.get? ("1.0.0".toList.length - 1) = some c ∧
          isAlnumChar c = true) ∧
        (∀ d, (none : Option (List Char)) = some d → isoShape d = true) :=
  md_header_shape "## v1.0.0".toList 9 "1.0.0".toList none (by decide)

/-! ## Claim C8: empty token and the leading-v strip -/

/-- `stripOne` removes at most one character and yields a tail segment. -/
theorem stripOne_suffix_len (c : Char) (l : List Char) :
    stripOne c l <:+ l ∧ l.length ≤ (stripOne c l).length + 1 := by
  match l with
  | [] => exact ⟨List.suffix_rfl, by simp [stripOne]⟩
  | x :: xs =>
    show (if x = c then xs else x :: xs) <:+ x :: xs ∧
      (x :: xs).length ≤ (if x = c then xs else x :: xs).length + 1
    split_ifs with hx
    · exact ⟨List.suffix_cons x xs, by simp⟩
    · exact ⟨List.suffix_rfl, by simp⟩

/-- Counterexample to C8 as stated: the source strips a leading `v` and
then a leading `V` in sequence, so the token `vV1.0.0` loses two leading
characters and the locator finds the bare `1.0.0` header, while the
spec-worded single-character strip leaves `V1.0.0` and finds nothing. -/
theorem strip_single_char_counterexample :
    LineForVersion "## 1.0.0" "vV1.0.0" = 0 ∧
    lineForVersionSpecOnce "## 1.0.0" "vV1.0.0" = -1 ∧
    stripToken "vV1.0.0".toList = "1.0.0".toList ∧
    stripTokenSpecOnce "vV1.0.0".toList = "V1.0.0".toList := by
  refine ⟨by decide, by decide, by decide, by decide⟩

/-- C8 (amended).  The locator returns -1 on the empty token immediately;
on a non-empty token it strips one leading `v` if present and then one
leading `V` if present before searching, so the search token is a tail
segment of the input losing at most two characters: tokens `vV`+t, `v`+t
and `V`+t (with t not itself starting in `v` or `V`) all search for t. -/
theorem locator_strip_behaviour :
    (∀ c : String, LineForVersion c "" = -1) ∧
    (∀ v : List Char, stripToken v <:+ v ∧ v.length ≤ (stripToken v).length + 2) ∧
    (∀ (c : String) (rest : List Char),
      (∀ x, rest.head? = some x → x ≠ 'v' ∧ x ≠ 'V') →
      LineForVersion c (String.mk ('v' :: 'V' :: rest)) =
          lineScan rest (splitOnNl c.toList) 0 ∧
        LineForVersion c (String.mk ('v' :: rest)) =
          lineScan rest (splitOnNl c.toList) 0 ∧
        LineForVersion c (String.mk ('V' :: rest)) =
          lineScan rest (splitOnNl c.toList) 0) := by
  refine ⟨?_, ?_, ?_⟩
  · intro c
    rfl
  · intro v
    obtain ⟨hs1, hl1⟩ := stripOne_suffix_len 'v' v
    obtain ⟨hs2, hl2⟩ := stripOne_suffix_len 'V' (stripOne 'v' v)
    exact ⟨hs2.trans hs1, by unfold stripToken; omega⟩
  · intro c rest hhead
    have hrest : stripOne 'V' rest = rest := by
      match rest with
      | [] => rfl
      | x :: xs =>
        have := (hhead x rfl).2
        simp [stripOne, this]
    have hne : ∀ l : List Char, String.mk ('v' :: l) ≠ "" := by
      intro l h
      have := congrArg String.data h
      simp at this
    have hne2 : ∀ l : List Char, String.mk ('V' :: l) ≠ "" := by
      intro l h
      have := congrArg String.data h
      simp at this
    refine ⟨?_, ?_, ?_⟩
    · rw [LineForVersion, if_neg (hne _)]
      rfl
    · rw [LineForVersion, if_neg (hne _)]
      show lineScan (stripToken ('v' :: rest)) _ 0 = _
      unfold stripToken
      rw [show stripOne 'v' ('v' :: rest) = rest from by simp [stripOne], hrest]
    · rw [LineForVersion, if_neg (hne2 _)]
      show lineScan (stripToken ('V' :: rest)) _ 0 = _
      unfold stripToken
      rw [show stripOne 'v' ('V' :: rest) = 'V' :: rest from by simp [stripOne],
          show stripOne 'V' ('V' :: rest) = rest from by simp [stripOne]]

/-- Witness for `locator_strip_behaviour`: the three prefixed forms of the
token 1.0.0 all resolve to the same line on a concrete document. -/
theorem locator_strip_behaviour_witness :
    LineForVersion "## 1.0.0" (String.mk ('v' :: 'V' :: "1.0.0".toList)) =
        lineScan "1.0.0".toList (splitOnNl "## 1.0.0".toList) 0 ∧
      LineForVersion "## 1.0.0" (String.mk ('v' :: "1.0.0".toList)) =
        lineScan "1.0.0".toList (splitOnNl "## 1.0.0".toList) 0 ∧
      LineForVersion "## 1.0.0" (String.mk ('V' :: "1.0.0".toList)) =
        lineScan "1.0.0".toList (splitOnNl "## 1.0.0".toList) 0 :=
  locator_strip_behaviour.2.2 "## 1.0.0" "1.0.0".toList (by decide)

/-! ## Claim C9: duplicate tokens, keyed map versus scan accessor -/

/-- C9.  The keyed map accessor built by `Entries` resolves a token to the
last matching entry of the sequence (first match of the reversed
sequence), while the scan accessor `Entry` resolves it to the first
matching entry; on the duplicate-token document the two accessors return
the two different occurrences and so disagree. -/
theorem entries_last_wins_entry_first_wins :
    (∀ (l : List VersionEntry) (v : String),
        entriesMap l v = (l.reverse.find? (fun ve => ve.version = v)).map (·.entry)) ∧
    (∀ (l : List VersionEntry) (v : String),
        entryLoop l v = (l.find? (fun ve => ve.version = v)).map (·.entry)) ∧
    EntryFor (Parse dupDoc) "1.0.0" = some ⟨some ⟨2024, 1, 1⟩, "first"⟩ ∧
    Entries (Parse dupDoc) "1.0.0" = some ⟨some ⟨2024, 2, 1⟩, "second"⟩ ∧
    EntryFor (Parse dupDoc) "1.0.0" ≠ Entries (Parse dupDoc) "1.0.0" := by
  refine ⟨?_, ?_, by decide, by decide, by decide⟩
  · intro l v
    unfold entriesMap
    rw [foldl_mapInsert_lookup]
    rcases h : l.reverse.find? (fun ve => ve.version = v) with _ | ve <;> simp [h]
  · intro l v
    induction l with
    | nil => rfl
    | cons a l ih =>
      by_cases hv : a.version = v
      · simp [entryLoop, hv, List.find?_cons, decide_eq_true hv]
      · simp [entryLoop, hv, List.find?_cons, decide_eq_false hv, ih]

/-- Witness for `entries_last_wins_entry_first_wins` at a concrete entry
list and token. -/
theorem entries_last_wins_entry_first_wins_witness :
    entriesMap [⟨"a", ⟨none, "x"⟩⟩, ⟨"a", ⟨none, "y"⟩⟩] "a" = some ⟨none, "y"⟩ ∧
    entryLoop [⟨"a", ⟨none, "x"⟩⟩, ⟨"a", ⟨none, "y"⟩⟩] "a" = some ⟨none, "x"⟩ := by
  constructor
  · rw [entries_last_wins_entry_first_wins.1 [⟨"a", ⟨none, "x"⟩⟩, ⟨"a", ⟨none, "y"⟩⟩] "a"]
    decide
  · rw [entries_last_wins_entry_first_wins.2.1 [⟨"a", ⟨none, "x"⟩⟩, ⟨"a", ⟨none, "y"⟩⟩] "a"]
    decide

/-! ## Claim C4: the Entry Segmenter preserves document order -/

/-- C4.  For every document and matcher result, the segmenter yields no
entries on an empty match list, and otherwise one record per match in the
same order, the version of each record being capture group 1 of its
match, so duplicates survive as separate records; the version sequence of
the duplicate-token document and of the out-of-order document list the
headers in exact document order, and a document with zero matches yields
the empty sequence. -/
theorem segmenter_preserves_document_order :
    (∀ content : String, doParse content [] = []) ∧
    (∀ (content : String) (ms : List RMatch), content ≠ "" →
        (doParse content ms).map (·.version) = ms.map fun m => String.mk m.g1) ∧
    Versions (Parse dupDoc) = ["1.0.0", "1.0.0"] ∧
    Versions (Parse unorderedDoc) = ["3.0.0", "1.0.0", "2.0.0"] ∧
    Versions (Parse plainDoc) = [] := by
  refine ⟨?_, ?_, by decide, by decide, by decide⟩
  · intro content
    unfold doParse
    split_ifs <;> rfl
  · intro content ms h
    unfold doParse
    rw [if_neg h]
    exact buildEntries_map_version _ _ ms

/-- Witness for `segmenter_preserves_document_order` at a concrete
document and match list. -/
theorem segmenter_preserves_document_order_witness :
    (doParse "x" [⟨0, 1, ['a'], none⟩, ⟨2, 3, ['a'], none⟩]).map (·.version) =
      ["a", "a"] := by
  rw [segmenter_preserves_document_order.2.1 "x" [⟨0, 1, ['a'], none⟩, ⟨2, 3, ['a'], none⟩]
        (by decide)]
  decide

/-! ## Claim C3: existence-based format detection priority -/

/-- C3.  When no matcher is supplied the detector picks the
Keep-a-Changelog matcher whenever it matches anywhere, otherwise the
underline matcher whenever it matches anywhere, otherwise the markdown
matcher as default; the mixed document with one underline header and two
markdown headers is classified as underline style, and a document with no
matches at all still falls back to the markdown matcher. -/
theorem detectFormat_priority :
    (∀ c : String, kacMatches c = true → detectFormat c = .kac) ∧
    (∀ c : String, kacMatches c = false → ulMatches c = true → detectFormat c = .ul) ∧
    (∀ c : String, kacMatches c = false → ulMatches c = false → detectFormat c = .md) ∧
    (Parse umDoc).pattern = PatternP.ul ∧
    findAllOf .md umDoc ≠ [] ∧
    (Parse plainDoc).pattern = PatternP.md ∧
    findAllOf .md plainDoc = [] := by
  refine ⟨?_, ?_, ?_, by rfl, ?_, by rfl, by rfl⟩
  · intro c h
    simp [detectFormat, h]
  · intro c h h2
    simp [detectFormat, h, h2]
  · intro c h h2
    simp [detectFormat, h, h2]
  · intro h
    have : (findAllOf .md umDoc).length = 2 := by rfl
    rw [h] at this
    cases this

/-- Witness for `detectFormat_priority`: the priority rules applied at the
mixed document and at a Keep-a-Changelog document. -/
theorem detectFormat_priority_witness :
    detectFormat umDoc = .ul ∧ detectFormat dupDoc = .kac :=
  ⟨detectFormat_priority.2.1 umDoc (by decide) (by decide),
   detectFormat_priority.1 dupDoc (by decide)⟩

end Changelog
